import Mathlib

set_option maxHeartbeats 1000000

/-!
Verification of the osmx-rs specification against a shallow embedding of the
source. Rust machine integers are embedded as `Nat`/`Int` (with explicit
wrap/saturate where it matters), `f64` coordinate arithmetic as exact `ℚ`
(sound at the concrete inputs evaluated here, where no binary rounding can
change the result), fallible or panicking code as `Option`/`Except`-shaped
results, and LMDB tables as association lists.
-/

/-! ## Coordinate codec (src/src/types.rs, src/bin/src/builders.rs) -/

/-- COORDINATE_PRECISION constant from types.rs. -/
def coordinatePrecision : Int := 10000000

/-- Rust `f64::round`: nearest integer, ties away from zero (here on exact rationals). -/
def ratRound (q : ℚ) : Int :=
  if 0 ≤ q then ⌊q + 1/2⌋ else ⌈q - 1/2⌉

/-- Rust `as i32` cast from f64: saturating conversion. -/
def i32Sat (n : Int) : Int := max (-(2^31)) (min (2^31 - 1) n)

/-- LocationBuilder::build, longitude field (builders.rs line 33): the source
computes `(self.longitude / 1e7).round() as i32` — it divides by 1e7. -/
def LocationBuilder_build_lon (longitude : ℚ) : Int :=
  i32Sat (ratRound (longitude / 10000000))

/-- LocationBuilder::build, latitude field (builders.rs line 34): `(self.latitude / 1e7).round() as i32`. -/
def LocationBuilder_build_lat (latitude : ℚ) : Int :=
  i32Sat (ratRound (latitude / 10000000))

/-- Location::lon (types.rs lines 23-26): the stored little-endian i32 divided by 1e7. -/
def Location_lon_of_stored (stored : Int) : ℚ :=
  (stored : ℚ) / (coordinatePrecision : ℚ)

/-- Modelled from the spec: the stored value the claim describes, `i32 = round(deg · 1e7)`. -/
def specLonStored (deg : ℚ) : Int := ratRound (deg * 10000000)

/-- Modelled from the spec: the value the claim says `lon()` returns, `round(deg·1e7)/1e7`. -/
def specLonReadBack (deg : ℚ) : ℚ := (specLonStored deg : ℚ) / 10000000

/-! ## Location reader over raw bytes (src/src/types.rs lines 22-40) -/

/-- Little-endian i32 from the first four entries of a byte list (two's complement). -/
def i32FromLeBytes (b : List Nat) : Int :=
  let u := b.getD 0 0 + 256 * b.getD 1 0 + 65536 * b.getD 2 0 + 16777216 * b.getD 3 0
  if u < 2^31 then (u : Int) else (u : Int) - 2^32

/-- TryFrom for Location (types.rs lines 34-40): wraps the byte slice with no
length validation and can never fail. -/
def Location_try_from (bytes : List Nat) : Option (List Nat) := some bytes

/-- Location::lon on the raw buffer: `self.buf[0..4]` — Rust slice indexing
panics (modelled as `none`) when the buffer holds fewer than 4 bytes. -/
def Location_lon_read (buf : List Nat) : Option ℚ :=
  if 4 ≤ buf.length then
    some ((i32FromLeBytes (buf.take 4) : ℚ) / (coordinatePrecision : ℚ))
  else none

/-- Location::lat on the raw buffer: `self.buf[4..8]` panics (modelled as
`none`) when the buffer holds fewer than 8 bytes. -/
def Location_lat_read (buf : List Nat) : Option ℚ :=
  if 8 ≤ buf.length then
    some ((i32FromLeBytes ((buf.drop 4).take 4) : ℚ) / (coordinatePrecision : ℚ))
  else none

/-! ## Way record builder and reader (src/bin/src/builders.rs, src/src/types.rs)

The Cap'n Proto message root of a way record holds a flat tag-string list and a
node-id list. `TypedBuilder::init_root` allocates a fresh, zeroed root struct
and discards any previously written root content (the capnp builder contract);
`get_root` returns the existing root. -/

structure WayMessage where
  tags : List String
  nodes : List Nat
deriving DecidableEq

/-- Fresh zeroed way record root, as produced by capnp `init_root` (and by
`TypedBuilder::new_default` for a new builder). -/
def wayInitRoot : WayMessage := ⟨[], []⟩

/-- WayBuilder::new (builders.rs lines 70-75). -/
def WayBuilder_new : WayMessage := wayInitRoot

/-- WayBuilder::set_tags (builders.rs lines 77-81): calls `init_root` (zeroing
the root) and then sets the tags field. -/
def WayBuilder_set_tags (_prev : WayMessage) (tags : List String) : WayMessage :=
  { wayInitRoot with tags := tags }

/-- WayBuilder::set_nodes (builders.rs lines 83-87): calls `init_root` again
(zeroing the root, so any tags written before are discarded) and then sets the
nodes field. -/
def WayBuilder_set_nodes (_prev : WayMessage) (nodes : List Nat) : WayMessage :=
  { wayInitRoot with nodes := nodes }

/-- The record expand.rs lines 205-221 builds for a way: `set_tags` then
`set_nodes` then `build`. -/
def expandWayRecord (tags : List String) (nodes : List Nat) : WayMessage :=
  WayBuilder_set_nodes (WayBuilder_set_tags WayBuilder_new tags) nodes

/-- Pair up a flat tag list, as `tags()` does via `Itertools::tuples` (a
trailing unpaired string is dropped). -/
def pairUpTags : List String → List (String × String)
  | k :: v :: rest => (k, v) :: pairUpTags rest
  | _ => []

/-- Way::tags (types.rs lines 91-100): the stored flat string list, paired. -/
def Way_tags (m : WayMessage) : List (String × String) := pairUpTags m.tags

/-- Way::nodes (types.rs lines 103-105): the stored node-id list. -/
def Way_nodes (m : WayMessage) : List Nat := m.nodes

/-- Way::is_closed (types.rs lines 108-114): `first` is the iterator's first
element, `last` is the last element of the remaining iterator. -/
def Way_is_closed (nodes : List Nat) : Bool :=
  nodes.head? == nodes.tail.getLast?

/-! ## Metadata writes (src/bin/src/expand.rs lines 112-135) -/

/-- LMDB put with `WriteFlags::empty()`: an upsert. Later puts shadow earlier
ones for `metadataGet`. -/
def metadataPut (tbl : List (String × List Nat)) (k : String) (v : List Nat) :
    List (String × List Nat) :=
  (k, v) :: tbl

/-- Lookup in the metadata table: the most recently put value for the key. -/
def metadataGet (tbl : List (String × List Nat)) (k : String) : Option (List Nat) :=
  (tbl.find? (fun kv => kv.1 == k)).map Prod.snd

/-- Little-endian byte list (n bytes) of a natural number. -/
def leBytes : Nat → Nat → List Nat
  | 0, _ => []
  | n + 1, v => (v % 256) :: leBytes n (v / 256)

/-- i64::to_ne_bytes on a little-endian host (the targets this crate builds
for): the 8 little-endian bytes of the two's-complement value. -/
def i64NeBytes (t : Int) : List Nat := leBytes 8 (t.emod (2 ^ 64)).toNat

/-- The metadata writes performed by expand.rs lines 112-135: two conditional
puts — both keyed "osmosis_replication_timestamp" and both reading
`header.osmosis_replication_timestamp()` — followed by the import_filename
put. -/
def expandMetadataWrites (timestamp : Option Int) (inputFilename : List Nat) :
    List (String × List Nat) :=
  let t0 : List (String × List Nat) := []
  let t1 := match timestamp with
    | some ts => metadataPut t0 "osmosis_replication_timestamp" (i64NeBytes ts)
    | none => t0
  let t2 := match timestamp with
    | some ts => metadataPut t1 "osmosis_replication_timestamp" (i64NeBytes ts)
    | none => t1
  metadataPut t2 "import_filename" inputFilename

/-! ## ElementTable::get (src/src/database.rs lines 154-162) -/

/-- Outcome of a call that may panic. -/
inductive GetOutcome (α : Type) where
  | ok : Option α → GetOutcome α
  | panicked : String → GetOutcome α
deriving DecidableEq

/-- Point lookup in an id-keyed table. -/
def assocGet {α : Type} (table : List (Nat × α)) (id : Nat) : Option α :=
  (table.find? (fun kv => kv.1 == id)).map Prod.snd

/-- ElementTable::get (database.rs lines 154-162). On a hit the value is
decoded and `Some` is returned (`E::try_from(raw).ok().unwrap()`, a panic if
decoding fails). The `Err(lmdb::Error::NotFound) => None` arm is commented out
in the source, so a missing key falls through to `unreachable!` and panics. -/
def ElementTable_get {α β : Type} (decode : β → Option α)
    (table : List (Nat × β)) (id : Nat) : GetOutcome α :=
  match assocGet table id with
  | some raw =>
    match decode raw with
    | some e => .ok (some e)
    | none => .panicked "called `Option::unwrap()` on a `None` value"
  | none => .panicked "internal error: entered unreachable code: Unexpected LMDB error: NotFound"

/-! ## Spatial query (src/src/lib.rs lines 138-166) -/

/-- lmdb `Cursor::iter_dup_from(start)` (MDB_SET_RANGE): positions at the
first key greater than or equal to `start` and iterates forward to the end of
the table; on a key-sorted table this is `dropWhile (key < start)`. -/
def iter_dup_from (table : List (Nat × Nat)) (start : Nat) : List (Nat × Nat) :=
  table.dropWhile (fun kv => kv.1 < start)

/-- The scan get_node_ids_in_region performs for one cell: iterate from
`start`, `take_while (end > key)`, yield the values. -/
def cellScan (table : List (Nat × Nat)) (start stop : Nat) : List Nat :=
  ((iter_dup_from table start).takeWhile (fun kv => stop > kv.1)).map Prod.snd

/-- Transaction::get_node_ids_in_region (lib.rs lines 138-166): for each cell
of the region, scan keys in `[child_begin(c, 16), child_end(c, 16))` and emit
the stored values. `childBegin`/`childEnd` abstract the external S2 library's
`child_begin_at_level`/`child_end_at_level` at level 16. -/
def get_node_ids_in_region (childBegin childEnd : Nat → Nat)
    (table : List (Nat × Nat)) (cells : List Nat) : List Nat :=
  cells.flatMap (fun c => cellScan table (childBegin c) (childEnd c))

/-! ## Bulk insert of sorted tuples (src/bin/src/expand.rs lines 27-59, 295-305) -/

/-- LMDB put with `WriteFlags::APPEND_DUP`: succeeds only when the new (key,
value) pair is lexicographically greater than the last pair in the table,
returning MDB_KEYEXIST otherwise. -/
def lmdbPutAppendDup (table : List (Nat × Nat)) (k v : Nat) :
    Except String (List (Nat × Nat)) :=
  match table.getLast? with
  | none => .ok (table ++ [(k, v)])
  | some last =>
    if last.1 < k ∨ (last.1 = k ∧ last.2 < v) then .ok (table ++ [(k, v)])
    else .error "MDB_KEYEXIST"

/-- Result of insert_sorted_tuples: the table contents plus the (key, value)
pairs whose put failed and was only reported with `eprintln!`. -/
structure InsertOutcome where
  table : List (Nat × Nat)
  loggedErrors : List (Nat × Nat)
deriving DecidableEq

/-- insert_sorted_tuples (expand.rs lines 27-59): for each pair of the sorted
stream, `txn.put(..., APPEND_DUP)`; on `Ok` continue, on `Err(e)` print the
error and the pair and continue. The function never aborts. -/
def insert_sorted_tuples : List (Nat × Nat) → List (Nat × Nat) → InsertOutcome
  | [], table => ⟨table, []⟩
  | kv :: rest, table =>
    match lmdbPutAppendDup table kv.1 kv.2 with
    | .ok t => insert_sorted_tuples rest t
    | .error _ =>
      let o := insert_sorted_tuples rest table
      ⟨o.table, kv :: o.loggedErrors⟩

/-- The tail of expand::run (expand.rs lines 295-305): bulk-insert one index
table's sorted stream, then `txn.commit()`. Because insert_sorted_tuples
never returns an error, the commit is reached unconditionally; `some` models
the committed database (paired with the errors that were merely printed). -/
def expandRunTail (stream : List (Nat × Nat)) :
    Option (List (Nat × Nat) × List (Nat × Nat)) :=
  let o := insert_sorted_tuples stream []
  some (o.table, o.loggedErrors)

/-! ## External sorter (src/bin/src/sorter.rs)

The records sorted here are `IDPair(u64, u64)` values with the derived
(lexicographic) `Ord`; the heap entries are `Reverse((IDPair, usize))`
pairs, again compared lexicographically, so `BinaryHeap::pop` returns the
least entry. Since all live entries carry distinct segment indices the pop
order is uniquely determined, and the heap is modelled exactly by a list
kept sorted by the entry order (push = ordered insert, pop = head). -/

/-- Derived lexicographic order on IDPair: by key, then by value (non-strict). -/
def pairLe (a b : Nat × Nat) : Prop := a.1 < b.1 ∨ (a.1 = b.1 ∧ a.2 ≤ b.2)

/-- Derived lexicographic order on IDPair: by key, then by value (strict). -/
def pairLt (a b : Nat × Nat) : Prop := a.1 < b.1 ∨ (a.1 = b.1 ∧ a.2 < b.2)

instance : DecidableRel pairLe := fun a b =>
  inferInstanceAs (Decidable (a.1 < b.1 ∨ (a.1 = b.1 ∧ a.2 ≤ b.2)))

instance : DecidableRel pairLt := fun a b =>
  inferInstanceAs (Decidable (a.1 < b.1 ∨ (a.1 = b.1 ∧ a.2 < b.2)))

/-- Order on heap entries `(record, segment index)`: the full lexicographic
comparison `Reverse<(T, usize)>` uses. -/
def entryLe (a b : (Nat × Nat) × Nat) : Prop :=
  pairLt a.1 b.1 ∨ (a.1 = b.1 ∧ a.2 ≤ b.2)

instance : DecidableRel entryLe := fun a b =>
  inferInstanceAs (Decidable (pairLt a.1 b.1 ∨ (a.1 = b.1 ∧ a.2 ≤ b.2)))

instance : IsTotal (Nat × Nat) pairLe :=
  ⟨fun a b => by
    rcases a with ⟨a1, a2⟩; rcases b with ⟨b1, b2⟩
    simp only [pairLe]
    omega⟩

instance : IsTrans (Nat × Nat) pairLe :=
  ⟨fun a b c h1 h2 => by
    rcases a with ⟨a1, a2⟩; rcases b with ⟨b1, b2⟩; rcases c with ⟨c1, c2⟩
    simp only [pairLe] at *
    omega⟩

instance : IsTotal ((Nat × Nat) × Nat) entryLe :=
  ⟨fun a b => by
    rcases a with ⟨⟨a1, a2⟩, ai⟩; rcases b with ⟨⟨b1, b2⟩, bi⟩
    simp only [entryLe, pairLt, Prod.mk.injEq]
    omega⟩

instance : IsTrans ((Nat × Nat) × Nat) entryLe :=
  ⟨fun a b c h1 h2 => by
    rcases a with ⟨⟨a1, a2⟩, ai⟩; rcases b with ⟨⟨b1, b2⟩, bi⟩; rcases c with ⟨⟨c1, c2⟩, ci⟩
    simp only [entryLe, pairLt, Prod.mk.injEq] at *
    omega⟩

instance : IsTrans (Nat × Nat) pairLt :=
  ⟨fun a b c h1 h2 => by
    rcases a with ⟨a1, a2⟩; rcases b with ⟨b1, b2⟩; rcases c with ⟨c1, c2⟩
    simp only [pairLt] at *
    omega⟩

/-- MAX_CACHE_SIZE from sorter.rs line 15. -/
def MAX_CACHE_SIZE : Nat := 4000000

/-- SortWorker state (sorter.rs lines 17-23): the in-memory cache, the spilled
segments (modelled by their record contents), and the push count. -/
structure SortWorker where
  cache : List (Nat × Nat)
  segments : List (List (Nat × Nat))
  count : Nat

/-- SortWorker::new (sorter.rs lines 26-37). -/
def SortWorker.new : SortWorker := ⟨[], [], 0⟩

/-- SortWorker::flush (sorter.rs lines 48-75): sort the cache in place
(`sort_unstable`; the lexicographic order is antisymmetric so the sorted
permutation is unique and insertion sort computes it) and append it as a new
segment, clearing the cache. The flush happens even when the cache is empty,
producing an empty segment. -/
def SortWorker.flush (w : SortWorker) : SortWorker :=
  ⟨[], w.segments ++ [List.insertionSort pairLe w.cache], w.count⟩

/-- SortWorker::push (sorter.rs lines 39-46): append to the cache, bump the
count, and flush once the cache reaches MAX_CACHE_SIZE. -/
def SortWorker.push (w : SortWorker) (v : Nat × Nat) : SortWorker :=
  let w' : SortWorker := ⟨w.cache ++ [v], w.segments, w.count + 1⟩
  if MAX_CACHE_SIZE ≤ w'.cache.length then w'.flush else w'

/-- The worker thread body (sorter.rs lines 136-148): push every record
received on the channel, then perform one final flush and return the
segment list. -/
def workerSegments (pushes : List (Nat × Nat)) : List (List (Nat × Nat)) :=
  ((pushes.foldl SortWorker.push SortWorker.new).flush).segments

/-- State of SortReader::sorted's merge loop (sorter.rs lines 91-119):
the unread suffix of each segment file, the heap contents (kept sorted;
head = minimum popped by `BinaryHeap::pop`), and the last-popped record. -/
structure MergeSt where
  readers : List (List (Nat × Nat))
  pqueue : List ((Nat × Nat) × Nat)
  prev : Option (Nat × Nat)

/-- One execution of the merge loop (sorter.rs lines 107-116), with explicit
fuel (the loop terminates because each iteration pops one record; callers
supply fuel equal to the total number of records). Pop the least entry, yield
it unless it equals `prev`, read the next record from the popped entry's
segment and push it back if that segment is not exhausted. -/
def mergeLoop : Nat → MergeSt → List (Nat × Nat)
  | 0, _ => []
  | fuel + 1, st =>
    match st.pqueue with
    | [] => []
    | (curr, ridx) :: pq =>
      let keep : Bool := match st.prev with
        | none => true
        | some p => decide (curr ≠ p)
      let rd := st.readers.getD ridx []
      let pq2 := match rd.head? with
        | some nxt => List.orderedInsert entryLe (nxt, ridx) pq
        | none => pq
      let rest := mergeLoop fuel ⟨st.readers.set ridx rd.tail, pq2, some curr⟩
      if keep then curr :: rest else rest

/-- Seeding of the merge (sorter.rs lines 100-103): for each segment index,
deserialize one record and push it with its index; the `.unwrap()` panics
(modelled as `none`) when any segment is empty. -/
def seedState (segments : List (List (Nat × Nat))) : Option MergeSt :=
  if segments.all (fun s => !s.isEmpty) then
    some ⟨segments.map List.tail,
      ((List.range segments.length).map
        (fun i => ((segments.getD i []).headD (0, 0), i))).foldl
        (fun h e => List.orderedInsert entryLe e h) [],
      none⟩
  else none

/-- Fuel sufficient to drain the merge: the total number of unpopped records. -/
def mergeFuel (st : MergeSt) : Nat :=
  st.pqueue.length + (st.readers.map List.length).sum

/-- SortReader::sorted (sorter.rs lines 91-119): seed the heap (panicking on
an empty segment) and run the merge loop to exhaustion. -/
def SortReader_sorted (segments : List (List (Nat × Nat))) : Option (List (Nat × Nat)) :=
  (seedState segments).map (fun st => mergeLoop (mergeFuel st) st)

/-- Sorter::sorted (sorter.rs lines 171-176): close the channel (the worker
then performs the final flush) and merge the resulting segments. -/
def Sorter_sorted (pushes : List (Nat × Nat)) : Option (List (Nat × Nat)) :=
  SortReader_sorted (workerSegments pushes)

/-- The state transition one iteration of the merge loop applies after
popping the minimum entry `(curr, ridx)` (used to reason about `mergeLoop`). -/
def stepState (readers : List (List (Nat × Nat))) (curr : Nat × Nat) (ridx : Nat)
    (pq : List ((Nat × Nat) × Nat)) : MergeSt :=
  ⟨readers.set ridx (readers.getD ridx []).tail,
    match (readers.getD ridx []).head? with
    | some nxt => List.orderedInsert entryLe (nxt, ridx) pq
    | none => pq,
    some curr⟩

/-- Invariant of the merge state: the heap is sorted with valid, distinct
segment indices; each heap entry bounds its segment's unread records from
below; unread segments are sorted; exhausted segments have no heap entry and
no unread records; and `prev` bounds the heap from below. -/
structure MergeInv (st : MergeSt) : Prop where
  pqSorted : List.Sorted entryLe st.pqueue
  idxLt : ∀ e ∈ st.pqueue, e.2 < st.readers.length
  idxNodup : (st.pqueue.map Prod.snd).Nodup
  bounds : ∀ e ∈ st.pqueue, ∀ x ∈ st.readers.getD e.2 [], pairLe e.1 x
  segSorted : ∀ s ∈ st.readers, List.Pairwise pairLe s
  deadEmpty : ∀ i, i < st.readers.length → (∀ e ∈ st.pqueue, e.2 ≠ i) →
    st.readers.getD i [] = []
  prevLe : ∀ p, st.prev = some p → ∀ e ∈ st.pqueue, pairLe p e.1

/-- A record is still unemitted: it sits in the heap or in a segment's
unread suffix. -/
def remVal (st : MergeSt) (x : Nat × Nat) : Prop :=
  (∃ e ∈ st.pqueue, e.1 = x) ∨ ∃ i, i < st.readers.length ∧ x ∈ st.readers.getD i []

/-- The pairs the Way arm pushes to the node_way sorter (expand.rs lines
223-226): the way's node refs are collected into a HashSet, and one
`(node_id, way_id)` pair is pushed per distinct node id. HashSet iteration
order is arbitrary; this model fixes one order (the sorter's output does not
depend on it). -/
def wayPushes (wayId : Nat) (refs : List Nat) : List (Nat × Nat) :=
  refs.dedup.map (fun n => (n, wayId))

/-! ## Theorems -/

/-- Helper: on a key-sorted table, taking while the key is below `e` is the
same as filtering. -/
theorem takeWhile_lt_eq_filter (e : Nat) :
    ∀ (t : List (Nat × Nat)), List.Pairwise (fun a b => a.1 ≤ b.1) t →
      t.takeWhile (fun kv => e > kv.1) = t.filter (fun kv => e > kv.1)
  | [], _ => rfl
  | kv :: t, h => by
    rcases List.pairwise_cons.mp h with ⟨hhead, htail⟩
    by_cases hk : e > kv.1
    · rw [List.takeWhile_cons_of_pos (by simpa using hk),
        List.filter_cons_of_pos (by simpa using hk),
        takeWhile_lt_eq_filter e t htail]
    · rw [List.takeWhile_cons_of_neg (by simpa using hk),
        List.filter_cons_of_neg (by simpa using hk)]
      rw [eq_comm, List.filter_eq_nil_iff]
      intro x hx
      have := hhead x hx
      simp only [decide_eq_true_eq]
      omega

/-- Helper: on a key-sorted table, one cell's cursor scan returns exactly the
values stored under keys in the half-open range. -/
theorem cellScan_eq_filter (s e : Nat) :
    ∀ (t : List (Nat × Nat)), List.Pairwise (fun a b => a.1 ≤ b.1) t →
      cellScan t s e = (t.filter (fun kv => s ≤ kv.1 ∧ kv.1 < e)).map Prod.snd
  | [], _ => rfl
  | kv :: t, h => by
    rcases List.pairwise_cons.mp h with ⟨hhead, htail⟩
    by_cases hk : kv.1 < s
    · have h1 : cellScan (kv :: t) s e = cellScan t s e := by
        unfold cellScan iter_dup_from
        rw [List.dropWhile_cons_of_pos (by simpa using hk)]
      rw [h1, cellScan_eq_filter s e t htail,
        List.filter_cons_of_neg (by simp; omega)]
    · have h1 : iter_dup_from (kv :: t) s = kv :: t := by
        unfold iter_dup_from
        rw [List.dropWhile_cons_of_neg (by simpa using hk)]
      rw [cellScan, h1, takeWhile_lt_eq_filter e _ h]
      congr 1
      apply List.filter_congr
      intro x hx
      apply decide_eq_decide.mpr
      rcases List.mem_cons.mp hx with rfl | hxt
      · omega
      · have := hhead x hxt
        omega

/-- C7: for a cell_node table whose keys are sorted, the spatial query walks
the region's cells in order and, for each cell, emits exactly the stored
values whose keys lie in `[child_begin(c, 16), child_end(c, 16))`, in table
order within each cell. -/
theorem c7_find_in_region (childBegin childEnd : Nat → Nat)
    (table : List (Nat × Nat)) (cells : List Nat)
    (hs : List.Pairwise (fun a b => a.1 ≤ b.1) table) :
    get_node_ids_in_region childBegin childEnd table cells =
      cells.flatMap (fun c =>
        (table.filter (fun kv => childBegin c ≤ kv.1 ∧ kv.1 < childEnd c)).map Prod.snd) := by
  unfold get_node_ids_in_region
  induction cells with
  | nil => rfl
  | cons c cs ih => simp only [List.flatMap_cons, ih, cellScan_eq_filter _ _ table hs]

/-- C7 witness: a three-row table scanned over one cell covering keys 6 to 8. -/
theorem c7_find_in_region_witness :
    get_node_ids_in_region (fun _ => 6) (fun _ => 9) [(5, 1), (7, 2), (9, 3)] [0] =
      [0].flatMap (fun _ =>
        ([(5, 1), (7, 2), (9, 3)].filter (fun kv => 6 ≤ kv.1 ∧ kv.1 < 9)).map Prod.snd) :=
  c7_find_in_region (fun _ => 6) (fun _ => 9) [(5, 1), (7, 2), (9, 3)] [0] (by decide)

/-- Helper: closed evaluation of the buggy longitude round trip at 1 degree. -/
theorem location_roundtrip_at_one :
    Location_lon_of_stored (LocationBuilder_build_lon 1) = 0 ∧ specLonReadBack 1 = 1 := by
  constructor <;>
    norm_num [Location_lon_of_stored, LocationBuilder_build_lon, specLonReadBack,
      specLonStored, ratRound, i32Sat, coordinatePrecision]

/-- C1 (counterexample): the claim fails at a node with `lon = 1.0`. The
builder divides by 1e7 instead of multiplying, so the stored i32 is
`round(1/1e7) = 0` and the reader returns `0`, while the claim's value
`round(1·1e7)/1e7` is `1`. -/
theorem c1_counterexample :
    Location_lon_of_stored (LocationBuilder_build_lon 1) ≠ specLonReadBack 1 := by
  have h := location_roundtrip_at_one
  rw [h.1, h.2]
  norm_num

/-- C1 (code evaluated at the failing input): what the code stores and reads
back for a longitude of 1 degree, versus the spec's stored value. -/
theorem c1_code_at_failing_input :
    LocationBuilder_build_lon 1 = 0 ∧ specLonStored 1 = 10000000 ∧
      Location_lon_of_stored (LocationBuilder_build_lon 1) = 0 := by
  refine ⟨?_, ?_, ?_⟩ <;>
    norm_num [Location_lon_of_stored, LocationBuilder_build_lon, specLonStored,
      ratRound, i32Sat, coordinatePrecision]

/-- C2 (counterexample): building the way record for tags
`["highway", "residential"]` and refs `[10, 11, 10]` the way expand.rs does
loses the tags — `set_nodes` re-initializes the capnp root — so `tags()`
reads back empty, not the input tag list; `nodes()` is preserved. -/
theorem c2_counterexample :
    Way_tags (expandWayRecord ["highway", "residential"] [10, 11, 10]) = [] ∧
      Way_tags (expandWayRecord ["highway", "residential"] [10, 11, 10]) ≠
        [("highway", "residential")] ∧
      Way_nodes (expandWayRecord ["highway", "residential"] [10, 11, 10]) = [10, 11, 10] := by
  refine ⟨rfl, by decide, rfl⟩

/-- C3 (code evaluated at the failing input): bulk-inserting the stream
`[(1,1), (1,1)]` hits an APPEND_DUP put error on the duplicate; the error is
only logged and the run still reaches the commit, producing a committed
database that contains `(1,1)` with the second put dropped. -/
theorem c3_put_error_swallowed :
    expandRunTail [(1, 1), (1, 1)] = some ([(1, 1)], [(1, 1)]) ∧
      (expandRunTail [(1, 1), (1, 1)]).isSome = true := by
  refine ⟨by decide, by decide⟩

/-- C4 (code evaluated at the failing input): `get` on an id that is absent
from the table reaches the `unreachable!` arm (the `NotFound => None` arm is
commented out) and panics instead of returning `None`. -/
theorem c4_get_panics_on_missing :
    ElementTable_get (fun (b : List Nat) => some b) [] 42 =
      GetOutcome.panicked
        "internal error: entered unreachable code: Unexpected LMDB error: NotFound" := by
  rfl

/-- C8: the metadata table maps "osmosis_replication_timestamp" to exactly the
native-endian i64 bytes of the header timestamp when the header carries one
(the duplicated conditional put writes the same key and value twice, which is
invisible to lookup), and has no entry for that key when the header lacks the
field. The import_filename put does not disturb the key. -/
theorem c8_metadata_timestamp (timestamp : Option Int) (inputFilename : List Nat) :
    metadataGet (expandMetadataWrites timestamp inputFilename)
        "osmosis_replication_timestamp" = timestamp.map i64NeBytes := by
  cases timestamp <;>
    simp [expandMetadataWrites, metadataPut, metadataGet, List.find?]

/-- C9: for a stored way with at least two node entries, `is_closed` returns
true exactly when the first node id equals the last. -/
theorem c9_is_closed (nodes : List Nat) (h : 2 ≤ nodes.length) :
    Way_is_closed nodes = true ↔ nodes.head? = nodes.getLast? := by
  match nodes, h with
  | a :: b :: t, _ =>
    simp only [Way_is_closed, List.head?_cons, List.tail_cons, beq_iff_eq]
    rw [List.getLast?_cons_cons]

/-- C9 witness: the closed ring `[1, 2, 1]`. -/
theorem c9_is_closed_witness :
    Way_is_closed [1, 2, 1] = true ↔ ([1, 2, 1] : List Nat).head? = [1, 2, 1].getLast? :=
  c9_is_closed [1, 2, 1] (by decide)

/-- C10: `Location::try_from` succeeds on every byte slice regardless of
length, and on a buffer shorter than 8 bytes reading `lon()` or `lat()`
panics on slice indexing (here, `lat` always does). -/
theorem c10_try_from_unchecked (bytes : List Nat) :
    Location_try_from bytes = some bytes ∧
      (bytes.length < 8 →
        Location_lon_read bytes = none ∨ Location_lat_read bytes = none) := by
  refine ⟨rfl, fun h => Or.inr ?_⟩
  simp only [Location_lat_read]
  rw [if_neg (by omega)]

/-- C10 witness: the 4-byte buffer `[0, 0, 0, 0]`, with the length bound
discharged. -/
theorem c10_try_from_unchecked_witness :
    Location_try_from [0, 0, 0, 0] = some [0, 0, 0, 0] ∧
      (Location_lon_read [0, 0, 0, 0] = none ∨ Location_lat_read [0, 0, 0, 0] = none) :=
  ⟨(c10_try_from_unchecked [0, 0, 0, 0]).1,
    (c10_try_from_unchecked [0, 0, 0, 0]).2 (by decide)⟩

theorem pairLe_refl (a : Nat × Nat) : pairLe a a := by simp [pairLe]

theorem pairLe_trans {a b c : Nat × Nat} (h1 : pairLe a b) (h2 : pairLe b c) : pairLe a c := by
  rcases a with ⟨a1, a2⟩; rcases b with ⟨b1, b2⟩; rcases c with ⟨c1, c2⟩
  simp only [pairLe] at *
  omega

theorem pairLe_antisymm {a b : Nat × Nat} (h1 : pairLe a b) (h2 : pairLe b a) : a = b := by
  rcases a with ⟨a1, a2⟩; rcases b with ⟨b1, b2⟩
  simp only [pairLe] at *
  simp only [Prod.mk.injEq]
  omega

theorem pairLt_of_le_of_ne {a b : Nat × Nat} (h1 : pairLe a b) (h2 : a ≠ b) : pairLt a b := by
  rcases a with ⟨a1, a2⟩; rcases b with ⟨b1, b2⟩
  simp only [pairLe, pairLt] at *
  simp only [ne_eq, Prod.mk.injEq, not_and] at h2
  rcases eq_or_ne a1 b1 with rfl | hne
  · right; exact ⟨rfl, by omega⟩
  · omega

theorem pairLe_of_lt {a b : Nat × Nat} (h : pairLt a b) : pairLe a b := by
  rcases a with ⟨a1, a2⟩; rcases b with ⟨b1, b2⟩
  simp only [pairLe, pairLt] at *
  omega

theorem pairLt_of_le_of_lt {a b c : Nat × Nat} (h1 : pairLe a b) (h2 : pairLt b c) :
    pairLt a c := by
  rcases a with ⟨a1, a2⟩; rcases b with ⟨b1, b2⟩; rcases c with ⟨c1, c2⟩
  simp only [pairLe, pairLt] at *
  omega

theorem pairLt_irrefl (a : Nat × Nat) : ¬pairLt a a := by
  rcases a with ⟨a1, a2⟩
  simp [pairLt]

theorem entryLe_fst {a b : (Nat × Nat) × Nat} (h : entryLe a b) : pairLe a.1 b.1 := by
  rcases h with h | ⟨h, _⟩
  · exact pairLe_of_lt h
  · rw [h]; exact pairLe_refl _

theorem getD_set_self {α : Type} (l : List α) (i : Nat) (h : i < l.length) (a d : α) :
    (l.set i a).getD i d = a := by
  induction l generalizing i with
  | nil => simp at h
  | cons x xs ih =>
    cases i with
    | zero => rfl
    | succ n => exact ih n (by simpa using h)

theorem getD_set_ne {α : Type} (l : List α) {i j : Nat} (h : i ≠ j) (a : α) (d : α) :
    (l.set i a).getD j d = l.getD j d := by
  induction l generalizing i j with
  | nil => simp [List.set]
  | cons x xs ih =>
    cases i with
    | zero =>
      cases j with
      | zero => exact absurd rfl h
      | succ m => rfl
    | succ n =>
      cases j with
      | zero => rfl
      | succ m => exact ih (by omega)

theorem getD_map_tail (l : List (List (Nat × Nat))) (i : Nat) :
    (l.map List.tail).getD i [] = (l.getD i []).tail := by
  induction l generalizing i with
  | nil => simp
  | cons x xs ih =>
    cases i with
    | zero => rfl
    | succ n => exact ih n

theorem getD_mem {α : Type} (l : List α) (i : Nat) (h : i < l.length) (d : α) :
    l.getD i d ∈ l := by
  induction l generalizing i with
  | nil => simp at h
  | cons x xs ih =>
    cases i with
    | zero => exact List.mem_cons_self _ _
    | succ n => exact List.mem_cons_of_mem _ (ih n (by simpa using h))

theorem sumLens_set (l : List (List (Nat × Nat))) (i : Nat) (h : i < l.length)
    (s : List (Nat × Nat)) :
    (((l.set i s).map List.length).sum + (l.getD i []).length =
      (l.map List.length).sum + s.length) := by
  induction l generalizing i with
  | nil => simp at h
  | cons x xs ih =>
    cases i with
    | zero => simp [List.getD]; omega
    | succ n =>
      have := ih n (by simpa using h)
      simp only [List.set, List.map_cons, List.sum_cons, List.getD_cons_succ]
      omega

theorem foldl_orderedInsert_sorted (l : List ((Nat × Nat) × Nat)) :
    ∀ h : List ((Nat × Nat) × Nat), List.Sorted entryLe h →
      List.Sorted entryLe (l.foldl (fun acc e => List.orderedInsert entryLe e acc) h) := by
  induction l with
  | nil => exact fun h hs => hs
  | cons e rest ih =>
    intro h hs
    exact ih _ (List.Sorted.orderedInsert e h hs)

theorem foldl_orderedInsert_perm (l : List ((Nat × Nat) × Nat)) :
    ∀ h : List ((Nat × Nat) × Nat),
      (l.foldl (fun acc e => List.orderedInsert entryLe e acc) h).Perm (h ++ l) := by
  induction l with
  | nil => intro h; simp
  | cons e rest ih =>
    intro h
    refine (ih _).trans ?_
    have h1 : (List.orderedInsert entryLe e h ++ rest).Perm ((e :: h) ++ rest) :=
      (List.perm_orderedInsert entryLe e h).append_right rest
    have h3 : (e :: (h ++ rest)).Perm (h ++ e :: rest) := List.perm_middle.symm
    exact h1.trans h3

/-- The state transition one iteration of the merge loop applies after popping
the minimum entry `(curr, ridx)`. -/

theorem remVal_le {readers pq prev curr ridx}
    (inv : MergeInv ⟨readers, (curr, ridx) :: pq, prev⟩) :
    ∀ x, remVal ⟨readers, (curr, ridx) :: pq, prev⟩ x → pairLe curr x := by
  intro x hx
  have hmin : ∀ e ∈ pq, pairLe curr e.1 := by
    intro e he
    exact entryLe_fst ((List.pairwise_cons.mp inv.pqSorted).1 e he)
  rcases hx with ⟨e, he, rfl⟩ | ⟨i, hi, hxi⟩
  · rcases List.mem_cons.mp he with rfl | he
    · exact pairLe_refl _
    · exact hmin e he
  · by_cases hdead : ∀ e ∈ (⟨readers, (curr, ridx) :: pq, prev⟩ : MergeSt).pqueue, e.2 ≠ i
    · have := inv.deadEmpty i hi hdead
      rw [this] at hxi
      exact absurd hxi (List.not_mem_nil x)
    · push_neg at hdead
      obtain ⟨e, he, hei⟩ := hdead
      have hbound := inv.bounds e he x (by rw [hei]; exact hxi)
      rcases List.mem_cons.mp he with rfl | he
      · exact hbound
      · exact pairLe_trans (hmin e he) hbound

theorem step_inv {readers pq prev curr ridx}
    (inv : MergeInv ⟨readers, (curr, ridx) :: pq, prev⟩) :
    MergeInv (stepState readers curr ridx pq) := by
  have f1 : ridx < readers.length := inv.idxLt (curr, ridx) (List.mem_cons_self _ _)
  have htail : List.Sorted entryLe pq := (List.pairwise_cons.mp inv.pqSorted).2
  have hnodup0 := inv.idxNodup
  simp only [List.map_cons] at hnodup0
  have hridxnot : ridx ∉ pq.map Prod.snd := (List.nodup_cons.mp hnodup0).1
  have hnodup : (pq.map Prod.snd).Nodup := (List.nodup_cons.mp hnodup0).2
  have hmin : ∀ e ∈ pq, pairLe curr e.1 := fun e he =>
    entryLe_fst ((List.pairwise_cons.mp inv.pqSorted).1 e he)
  have hne_of_mem : ∀ e ∈ pq, e.2 ≠ ridx := by
    intro e he heq
    exact hridxnot (heq ▸ List.mem_map_of_mem Prod.snd he)
  rcases hR : readers.getD ridx [] with _ | ⟨nxt, rtail⟩
  · -- the popped segment is exhausted: nothing is pushed back
    refine ⟨?_, ?_, ?_, ?_, ?_, ?_, ?_⟩ <;>
      simp only [stepState, hR, List.head?_nil, List.tail_nil]
    · exact htail
    · intro e he; rw [List.length_set]; exact inv.idxLt e (List.mem_cons_of_mem _ he)
    · exact hnodup
    · intro e he x hx
      rw [getD_set_ne readers (fun h => hne_of_mem e he h.symm) _ _] at hx
      exact inv.bounds e (List.mem_cons_of_mem _ he) x hx
    · intro s hs
      rcases List.mem_or_eq_of_mem_set hs with hs | rfl
      · exact inv.segSorted s hs
      · exact List.Pairwise.nil
    · intro i hi hno
      rw [List.length_set] at hi
      by_cases hiridx : i = ridx
      · subst hiridx; exact getD_set_self readers i f1 _ _
      · rw [getD_set_ne readers (fun h => hiridx h.symm) _ _]
        refine inv.deadEmpty i hi ?_
        intro e he
        rcases List.mem_cons.mp he with rfl | he
        · exact fun h => hiridx h.symm
        · exact hno e he
    · intro p hp e he
      obtain rfl : curr = p := Option.some.inj hp
      exact hmin e he
  · -- the popped segment has a next record, pushed back into the heap
    have hRmem : (nxt :: rtail) ∈ readers := hR ▸ getD_mem readers ridx f1 []
    have hRsorted : List.Pairwise pairLe (nxt :: rtail) := inv.segSorted _ hRmem
    have hperm : (List.orderedInsert entryLe (nxt, ridx) pq).Perm ((nxt, ridx) :: pq) :=
      List.perm_orderedInsert entryLe _ _
    refine ⟨?_, ?_, ?_, ?_, ?_, ?_, ?_⟩ <;>
      simp only [stepState, hR, List.head?_cons, List.tail_cons]
    · exact List.Sorted.orderedInsert _ _ htail
    · intro e he
      rw [List.length_set]
      rcases (List.mem_orderedInsert entryLe).mp he with rfl | he
      · exact f1
      · exact inv.idxLt e (List.mem_cons_of_mem _ he)
    · refine (hperm.map Prod.snd).nodup_iff.mpr ?_
      simpa using hnodup0
    · intro e he x hx
      rcases (List.mem_orderedInsert entryLe).mp he with rfl | he
      · rw [getD_set_self readers ridx f1 _ _] at hx
        exact (List.pairwise_cons.mp hRsorted).1 x hx
      · rw [getD_set_ne readers (fun h => hne_of_mem e he h.symm) _ _] at hx
        exact inv.bounds e (List.mem_cons_of_mem _ he) x hx
    · intro s hs
      rcases List.mem_or_eq_of_mem_set hs with hs | rfl
      · exact inv.segSorted s hs
      · exact (List.pairwise_cons.mp hRsorted).2
    · intro i hi hno
      by_cases hiridx : i = ridx
      · subst hiridx
        exact absurd rfl (hno (nxt, i) ((List.mem_orderedInsert entryLe).mpr (Or.inl rfl)))
      · rw [getD_set_ne readers (fun h => hiridx h.symm) _ _]
        rw [List.length_set] at hi
        refine inv.deadEmpty i hi ?_
        intro e he
        rcases List.mem_cons.mp he with rfl | he
        · exact fun h => hiridx h.symm
        · exact hno e ((List.mem_orderedInsert entryLe).mpr (Or.inr he))
    · intro p hp e he
      obtain rfl : curr = p := Option.some.inj hp
      rcases (List.mem_orderedInsert entryLe).mp he with rfl | he
      · exact inv.bounds (curr, ridx) (List.mem_cons_self _ _) nxt
          (by rw [hR]; exact List.mem_cons_self _ _)
      · exact hmin e he

theorem step_fuel {readers pq prev curr ridx}
    (inv : MergeInv ⟨readers, (curr, ridx) :: pq, prev⟩) :
    mergeFuel (stepState readers curr ridx pq) + 1 =
      mergeFuel ⟨readers, (curr, ridx) :: pq, prev⟩ := by
  have f1 : ridx < readers.length := inv.idxLt (curr, ridx) (List.mem_cons_self _ _)
  rcases hR : readers.getD ridx [] with _ | ⟨nxt, rtail⟩
  · have hsum := sumLens_set readers ridx f1 []
    rw [hR] at hsum
    simp only [mergeFuel, stepState, hR, List.head?_nil, List.tail_nil, List.length_cons]
    simp only [List.length_nil] at hsum
    omega
  · have hsum := sumLens_set readers ridx f1 rtail
    rw [hR] at hsum
    simp only [mergeFuel, stepState, hR, List.head?_cons, List.tail_cons, List.length_cons,
      List.orderedInsert_length]
    simp only [List.length_cons] at hsum
    omega

theorem remVal_curr {readers pq prev curr ridx} :
    remVal ⟨readers, (curr, ridx) :: pq, prev⟩ curr :=
  Or.inl ⟨(curr, ridx), List.mem_cons_self _ _, rfl⟩

theorem step_remVal_to {readers pq prev curr ridx x}
    (inv : MergeInv ⟨readers, (curr, ridx) :: pq, prev⟩)
    (hx : remVal (stepState readers curr ridx pq) x) :
    remVal ⟨readers, (curr, ridx) :: pq, prev⟩ x := by
  have f1 : ridx < readers.length := inv.idxLt (curr, ridx) (List.mem_cons_self _ _)
  rcases hR : readers.getD ridx [] with _ | ⟨nxt, rtail⟩ <;>
    simp only [stepState, hR, List.head?_nil, List.head?_cons, List.tail_nil,
      List.tail_cons, remVal] at hx <;> rcases hx with ⟨e, he, rfl⟩ | ⟨i, hi, hxi⟩
  · exact Or.inl ⟨e, List.mem_cons_of_mem _ he, rfl⟩
  · rw [List.length_set] at hi
    by_cases hiridx : i = ridx
    · subst hiridx
      rw [getD_set_self readers i f1 _ _] at hxi
      exact absurd hxi (List.not_mem_nil x)
    · rw [getD_set_ne readers (fun h => hiridx h.symm) _ _] at hxi
      exact Or.inr ⟨i, hi, hxi⟩
  · rcases (List.mem_orderedInsert entryLe).mp he with rfl | he
    · exact Or.inr ⟨ridx, f1, by rw [hR]; exact List.mem_cons_self _ _⟩
    · exact Or.inl ⟨e, List.mem_cons_of_mem _ he, rfl⟩
  · rw [List.length_set] at hi
    by_cases hiridx : i = ridx
    · subst hiridx
      rw [getD_set_self readers i f1 _ _] at hxi
      exact Or.inr ⟨i, f1, by rw [hR]; exact List.mem_cons_of_mem _ hxi⟩
    · rw [getD_set_ne readers (fun h => hiridx h.symm) _ _] at hxi
      exact Or.inr ⟨i, hi, hxi⟩

theorem step_remVal_from {readers pq prev curr ridx x}
    (inv : MergeInv ⟨readers, (curr, ridx) :: pq, prev⟩)
    (hx : remVal ⟨readers, (curr, ridx) :: pq, prev⟩ x) (hne : x ≠ curr) :
    remVal (stepState readers curr ridx pq) x := by
  have f1 : ridx < readers.length := inv.idxLt (curr, ridx) (List.mem_cons_self _ _)
  rcases hx with ⟨e, he, rfl⟩ | ⟨i, hi, hxi⟩
  · rcases List.mem_cons.mp he with rfl | he
    · exact absurd rfl hne
    · rcases hR : readers.getD ridx [] with _ | ⟨nxt, rtail⟩ <;>
        simp only [stepState, hR, List.head?_nil, List.head?_cons, remVal]
      · exact Or.inl ⟨e, he, rfl⟩
      · exact Or.inl ⟨e, (List.mem_orderedInsert entryLe).mpr (Or.inr he), rfl⟩
  · by_cases hiridx : i = ridx
    · subst hiridx
      rcases hR : readers.getD i [] with _ | ⟨nxt, rtail⟩
      · rw [hR] at hxi
        exact absurd hxi (List.not_mem_nil x)
      · rw [hR] at hxi
        simp only [stepState, hR, List.head?_cons, List.tail_cons, remVal]
        rcases List.mem_cons.mp hxi with rfl | hxt
        · exact Or.inl ⟨(x, i), (List.mem_orderedInsert entryLe).mpr (Or.inl rfl), rfl⟩
        · exact Or.inr ⟨i, by rw [List.length_set]; exact hi,
            by rw [getD_set_self readers i f1 _ _]; exact hxt⟩
    · rcases hR : readers.getD ridx [] with _ | ⟨nxt, rtail⟩ <;>
        simp only [stepState, hR, List.head?_nil, List.head?_cons, List.tail_nil,
          List.tail_cons, remVal]
      · exact Or.inr ⟨i, by rw [List.length_set]; exact hi,
          by rw [getD_set_ne readers (fun h => hiridx h.symm) _ _]; exact hxi⟩
      · exact Or.inr ⟨i, by rw [List.length_set]; exact hi,
          by rw [getD_set_ne readers (fun h => hiridx h.symm) _ _]; exact hxi⟩

theorem mergeLoop_nilqueue (fuel : Nat) (st : MergeSt) (hpq : st.pqueue = []) :
    mergeLoop fuel st = [] := by
  cases fuel with
  | zero => rfl
  | succ n => simp [mergeLoop, hpq]

theorem remVal_nilqueue {st : MergeSt} (inv : MergeInv st) (hpq : st.pqueue = []) :
    ∀ x, ¬remVal st x := by
  intro x hx
  rcases hx with ⟨e, he, _⟩ | ⟨i, hi, hxi⟩
  · rw [hpq] at he
    exact absurd he (List.not_mem_nil e)
  · have hdead := inv.deadEmpty i hi (by rw [hpq]; intro e he; exact absurd he (List.not_mem_nil e))
    rw [hdead] at hxi
    exact absurd hxi (List.not_mem_nil x)

theorem mergeLoop_spec : ∀ (fuel : Nat) (st : MergeSt), MergeInv st → mergeFuel st ≤ fuel →
    (∀ x, x ∈ mergeLoop fuel st ↔ remVal st x ∧ st.prev ≠ some x) ∧
    List.Chain' pairLt (mergeLoop fuel st) ∧
    (∀ p, st.prev = some p → ∀ x ∈ mergeLoop fuel st, pairLt p x) := by
  intro fuel
  induction fuel with
  | zero =>
    intro st inv hf
    have hpq : st.pqueue = [] := by
      simp only [mergeFuel, Nat.le_zero] at hf
      exact List.length_eq_zero.mp (by omega)
    rw [mergeLoop_nilqueue 0 st hpq]
    refine ⟨?_, List.chain'_nil, ?_⟩
    · intro x
      simp only [List.not_mem_nil, false_iff]
      rintro ⟨hrv, _⟩
      exact remVal_nilqueue inv hpq x hrv
    · intro p _ x hx
      exact absurd hx (List.not_mem_nil x)
  | succ fuel ih =>
    intro st inv hf
    obtain ⟨readers, pqueue, prev⟩ := st
    rcases pqueue with _ | ⟨⟨curr, ridx⟩, pq⟩
    · rw [mergeLoop_nilqueue (fuel + 1) _ rfl]
      refine ⟨?_, List.chain'_nil, ?_⟩
      · intro x
        simp only [List.not_mem_nil, false_iff]
        rintro ⟨hrv, _⟩
        exact remVal_nilqueue inv rfl x hrv
      · intro p _ x hx
        exact absurd hx (List.not_mem_nil x)
    · have inv' := step_inv inv
      have hfs : mergeFuel (stepState readers curr ridx pq) ≤ fuel := by
        have := step_fuel inv
        omega
      obtain ⟨ihmem, ihchain, ihlt⟩ := ih (stepState readers curr ridx pq) inv' hfs
      have hple : ∀ p, prev = some p → pairLe p curr :=
        fun p hp => inv.prevLe p hp (curr, ridx) (List.mem_cons_self _ _)
      rcases prev with _ | p
      · -- prev is none: the popped minimum is always emitted
        have hunfold : mergeLoop (fuel + 1) ⟨readers, (curr, ridx) :: pq, none⟩ =
            curr :: mergeLoop fuel (stepState readers curr ridx pq) := rfl
        rw [hunfold]
        refine ⟨?_, ?_, ?_⟩
        · intro x
          constructor
          · intro hx
            rcases List.mem_cons.mp hx with rfl | hrest
            · exact ⟨remVal_curr, by simp⟩
            · obtain ⟨hrv', _⟩ := (ihmem x).mp hrest
              exact ⟨step_remVal_to inv hrv', by simp⟩
          · rintro ⟨hrv, _⟩
            by_cases hxc : x = curr
            · subst hxc
              exact List.mem_cons_self _ _
            · refine List.mem_cons_of_mem _ ((ihmem x).mpr ⟨step_remVal_from inv hrv hxc, ?_⟩)
              exact fun h => hxc (Option.some.inj h).symm
        · refine List.chain'_cons'.mpr ⟨?_, ihchain⟩
          intro b hb
          exact ihlt curr rfl b (List.mem_of_mem_head? hb)
        · intro p hp x hx
          exact absurd hp (by simp)
      · by_cases hcp : curr = p
        · -- prev equals the popped record: it is a duplicate and is dropped
          have hunfold : mergeLoop (fuel + 1) ⟨readers, (curr, ridx) :: pq, some p⟩ =
              (if (decide (curr ≠ p)) = true
               then curr :: mergeLoop fuel (stepState readers curr ridx pq)
               else mergeLoop fuel (stepState readers curr ridx pq)) := rfl
          rw [hunfold, decide_eq_false (by simpa using hcp), if_neg (by simp)]
          subst hcp
          refine ⟨?_, ihchain, ?_⟩
          · intro x
            rw [ihmem x]
            constructor
            · rintro ⟨hrv', hne⟩
              exact ⟨step_remVal_to inv hrv', hne⟩
            · rintro ⟨hrv, hne⟩
              refine ⟨step_remVal_from inv hrv ?_, hne⟩
              intro h
              exact hne (h ▸ rfl)
          · intro q hq x hx
            obtain rfl : curr = q := Option.some.inj hq
            exact ihlt curr rfl x hx
        · -- prev differs from the popped record: it is emitted
          have hunfold : mergeLoop (fuel + 1) ⟨readers, (curr, ridx) :: pq, some p⟩ =
              (if (decide (curr ≠ p)) = true
               then curr :: mergeLoop fuel (stepState readers curr ridx pq)
               else mergeLoop fuel (stepState readers curr ridx pq)) := rfl
          rw [hunfold, decide_eq_true (p := curr ≠ p) hcp, if_pos rfl]
          have hplecurr : pairLe p curr := hple p rfl
          refine ⟨?_, ?_, ?_⟩
          · intro x
            constructor
            · intro hx
              rcases List.mem_cons.mp hx with rfl | hrest
              · exact ⟨remVal_curr, fun h => hcp (Option.some.inj h).symm⟩
              · obtain ⟨hrv', _⟩ := (ihmem x).mp hrest
                have hrv := step_remVal_to inv hrv'
                refine ⟨hrv, ?_⟩
                intro h
                obtain rfl : p = x := Option.some.inj h
                exact hcp (pairLe_antisymm (remVal_le inv p hrv) hplecurr)
            · rintro ⟨hrv, hne⟩
              by_cases hxc : x = curr
              · subst hxc
                exact List.mem_cons_self _ _
              · refine List.mem_cons_of_mem _ ((ihmem x).mpr ⟨step_remVal_from inv hrv hxc, ?_⟩)
                exact fun h => hxc (Option.some.inj h).symm
          · refine List.chain'_cons'.mpr ⟨?_, ihchain⟩
            intro b hb
            exact ihlt curr rfl b (List.mem_of_mem_head? hb)
          · intro q hq x hx
            obtain rfl : p = q := Option.some.inj hq
            rcases List.mem_cons.mp hx with rfl | hrest
            · exact pairLt_of_le_of_ne hplecurr (fun h => hcp h.symm)
            · exact pairLt_of_le_of_lt hplecurr (ihlt curr rfl x hrest)

theorem getD_of_mem {α : Type} (l : List α) (d : α) (s : α) (hs : s ∈ l) :
    ∃ i, i < l.length ∧ l.getD i d = s := by
  induction l with
  | nil => exact absurd hs (List.not_mem_nil s)
  | cons x xs ih =>
    rcases List.mem_cons.mp hs with rfl | hs
    · exact ⟨0, by simp, rfl⟩
    · obtain ⟨i, hi, hget⟩ := ih hs
      exact ⟨i + 1, by simpa using hi, hget⟩

theorem seedState_spec (segments : List (List (Nat × Nat)))
    (hsor : ∀ s ∈ segments, List.Pairwise pairLe s)
    (st : MergeSt) (h : seedState segments = some st) :
    MergeInv st ∧ (∀ x, remVal st x ↔ ∃ s ∈ segments, x ∈ s) ∧ st.prev = none := by
  unfold seedState at h
  by_cases hall : segments.all (fun s => !s.isEmpty) = true
  · rw [if_pos hall] at h
    obtain rfl := (Option.some.inj h).symm
    have hne : ∀ s ∈ segments, s ≠ [] := by
      intro s hs
      have := List.all_eq_true.mp hall s hs
      simpa [List.isEmpty_iff] using this
    set entries := (List.range segments.length).map
      (fun i => ((segments.getD i []).headD (0, 0), i)) with hentries
    set pq0 := entries.foldl (fun h e => List.orderedInsert entryLe e h) [] with hpq0
    have hperm : pq0.Perm entries := by
      have := foldl_orderedInsert_perm entries []
      simpa using this
    have hpq0mem : ∀ e, e ∈ pq0 ↔ e ∈ entries := fun e => hperm.mem_iff
    have hentry_mem : ∀ e, e ∈ entries ↔
        ∃ i, i < segments.length ∧ e = ((segments.getD i []).headD (0, 0), i) := by
      intro e
      simp only [hentries, List.mem_map, List.mem_range]
      constructor
      · rintro ⟨i, hi, rfl⟩; exact ⟨i, hi, rfl⟩
      · rintro ⟨i, hi, rfl⟩; exact ⟨i, hi, rfl⟩
    refine ⟨⟨?_, ?_, ?_, ?_, ?_, ?_, ?_⟩, ?_, rfl⟩
    · exact foldl_orderedInsert_sorted entries [] List.sorted_nil
    · intro e he
      obtain ⟨i, hi, rfl⟩ := (hentry_mem e).mp ((hpq0mem e).mp he)
      simpa using hi
    · have hm : (pq0.map Prod.snd).Perm (entries.map Prod.snd) := hperm.map Prod.snd
      refine hm.nodup_iff.mpr ?_
      simp only [hentries, List.map_map]
      have hcomp : (Prod.snd ∘ fun i => ((segments.getD i []).headD (0, 0), i)) = id := by
        funext i; rfl
      rw [hcomp, List.map_id]
      exact List.nodup_range segments.length
    · intro e he x hx
      obtain ⟨i, hi, rfl⟩ := (hentry_mem e).mp ((hpq0mem e).mp he)
      simp only at hx
      rw [getD_map_tail segments i] at hx
      rcases hseg : segments.getD i [] with _ | ⟨hd, tl⟩
      · rw [hseg] at hx
        exact absurd hx (by simp)
      · have hsegmem : (hd :: tl) ∈ segments := hseg ▸ getD_mem segments i hi []
        have := (List.pairwise_cons.mp (hsor _ hsegmem)).1 x (by rw [hseg] at hx; exact hx)
        simpa [hseg] using this
    · intro s hs
      obtain ⟨s0, hs0, rfl⟩ := List.mem_map.mp hs
      rcases s0 with _ | ⟨hd, tl⟩
      · exact List.Pairwise.nil
      · exact (List.pairwise_cons.mp (hsor _ hs0)).2
    · intro i hi hno
      rw [List.length_map] at hi
      have hein : ((segments.getD i []).headD (0, 0), i) ∈ pq0 :=
        (hpq0mem _).mpr ((hentry_mem _).mpr ⟨i, hi, rfl⟩)
      exact absurd rfl (hno _ hein)
    · intro p hp
      exact absurd hp (by simp)
    · intro x
      constructor
      · rintro (⟨e, he, rfl⟩ | ⟨i, hi, hx⟩)
        · obtain ⟨i, hi, rfl⟩ := (hentry_mem e).mp ((hpq0mem e).mp he)
          rcases hseg : segments.getD i [] with _ | ⟨hd, tl⟩
          · exact absurd hseg (hne _ (hseg ▸ getD_mem segments i hi []))
          · refine ⟨hd :: tl, hseg ▸ getD_mem segments i hi [], ?_⟩
            simp [hseg]
        · rw [List.length_map] at hi
          rw [getD_map_tail segments i] at hx
          rcases hseg : segments.getD i [] with _ | ⟨hd, tl⟩
          · rw [hseg] at hx
            exact absurd hx (by simp)
          · exact ⟨hd :: tl, hseg ▸ getD_mem segments i hi [],
              by rw [hseg] at hx; exact List.mem_cons_of_mem _ hx⟩
      · rintro ⟨s, hs, hx⟩
        obtain ⟨i, hi, hgd⟩ := getD_of_mem segments [] s hs
        rcases s with _ | ⟨hd, tl⟩
        · exact absurd hx (List.not_mem_nil x)
        · rcases List.mem_cons.mp hx with rfl | hxt
          · refine Or.inl ⟨((segments.getD i []).headD (0, 0), i), ?_, ?_⟩
            · exact (hpq0mem _).mpr ((hentry_mem _).mpr ⟨i, hi, rfl⟩)
            · rw [hgd]
              rfl
          · refine Or.inr ⟨i, by simpa using hi, ?_⟩
            rw [getD_map_tail segments i, hgd]
            exact hxt
  · rw [if_neg hall] at h
    exact absurd h (by simp)

theorem push_segments (w : SortWorker) (v : Nat × Nat) :
    (SortWorker.push w v).segments = w.segments ∨
      (SortWorker.push w v).segments =
        w.segments ++ [List.insertionSort pairLe (w.cache ++ [v])] := by
  unfold SortWorker.push SortWorker.flush
  by_cases hlen : MAX_CACHE_SIZE ≤ (w.cache ++ [v]).length
  · rw [if_pos hlen]
    exact Or.inr rfl
  · rw [if_neg hlen]
    exact Or.inl rfl

theorem push_mem (w : SortWorker) (v x : Nat × Nat) :
    ((∃ s ∈ (SortWorker.push w v).segments, x ∈ s) ∨ x ∈ (SortWorker.push w v).cache) ↔
      ((∃ s ∈ w.segments, x ∈ s) ∨ x ∈ w.cache ∨ x = v) := by
  unfold SortWorker.push SortWorker.flush
  by_cases hlen : MAX_CACHE_SIZE ≤ (w.cache ++ [v]).length
  · rw [if_pos hlen]
    constructor
    · rintro (⟨s, hs, hx⟩ | hx)
      · rcases List.mem_append.mp hs with hs | hs
        · exact Or.inl ⟨s, hs, hx⟩
        · rw [List.mem_singleton.mp hs] at hx
          rcases List.mem_append.mp ((List.mem_insertionSort pairLe).mp hx) with hx | hx
          · exact Or.inr (Or.inl hx)
          · exact Or.inr (Or.inr (List.mem_singleton.mp hx))
      · exact absurd hx (List.not_mem_nil x)
    · rintro (⟨s, hs, hx⟩ | hx | rfl)
      · exact Or.inl ⟨s, List.mem_append.mpr (Or.inl hs), hx⟩
      · exact Or.inl ⟨_, List.mem_append.mpr (Or.inr (List.mem_singleton_self _)),
          (List.mem_insertionSort pairLe).mpr (List.mem_append.mpr (Or.inl hx))⟩
      · exact Or.inl ⟨_, List.mem_append.mpr (Or.inr (List.mem_singleton_self _)),
          (List.mem_insertionSort pairLe).mpr
            (List.mem_append.mpr (Or.inr (List.mem_singleton_self _)))⟩
  · rw [if_neg hlen]
    constructor
    · rintro (⟨s, hs, hx⟩ | hx)
      · exact Or.inl ⟨s, hs, hx⟩
      · rcases List.mem_append.mp hx with hx | hx
        · exact Or.inr (Or.inl hx)
        · exact Or.inr (Or.inr (List.mem_singleton.mp hx))
    · rintro (⟨s, hs, hx⟩ | hx | rfl)
      · exact Or.inl ⟨s, hs, hx⟩
      · exact Or.inr (List.mem_append.mpr (Or.inl hx))
      · exact Or.inr (List.mem_append.mpr (Or.inr (List.mem_singleton_self _)))

theorem push_segments_sorted (w : SortWorker) (v : Nat × Nat)
    (hw : ∀ s ∈ w.segments, List.Pairwise pairLe s) :
    ∀ s ∈ (SortWorker.push w v).segments, List.Pairwise pairLe s := by
  intro s hs
  rcases push_segments w v with heq | heq <;> rw [heq] at hs
  · exact hw s hs
  · rcases List.mem_append.mp hs with hs | hs
    · exact hw s hs
    · rw [List.mem_singleton.mp hs]
      exact List.sorted_insertionSort pairLe _

theorem foldl_push_segments_sorted (pushes : List (Nat × Nat)) :
    ∀ (w : SortWorker), (∀ s ∈ w.segments, List.Pairwise pairLe s) →
      ∀ s ∈ (pushes.foldl SortWorker.push w).segments, List.Pairwise pairLe s := by
  induction pushes with
  | nil => exact fun w hw => hw
  | cons v rest ih =>
    intro w hw
    exact ih (SortWorker.push w v) (push_segments_sorted w v hw)

theorem foldl_push_mem (pushes : List (Nat × Nat)) :
    ∀ (w : SortWorker) (x : Nat × Nat),
      ((∃ s ∈ (pushes.foldl SortWorker.push w).segments, x ∈ s) ∨
        x ∈ (pushes.foldl SortWorker.push w).cache) ↔
      ((∃ s ∈ w.segments, x ∈ s) ∨ x ∈ w.cache ∨ x ∈ pushes) := by
  induction pushes with
  | nil =>
    intro w x
    simp only [List.foldl_nil, List.not_mem_nil, or_false]
  | cons v rest ih =>
    intro w x
    rw [List.foldl_cons]
    have h1 := ih (SortWorker.push w v) x
    have h2 := push_mem w v x
    constructor
    · intro h
      rcases h1.mp h with ⟨s, hs, hx⟩ | hx | hx
      · rcases h2.mp (Or.inl ⟨s, hs, hx⟩) with h3 | h3 | h3
        · exact Or.inl h3
        · exact Or.inr (Or.inl h3)
        · exact Or.inr (Or.inr (by rw [h3]; exact List.mem_cons_self _ _))
      · rcases h2.mp (Or.inr hx) with h3 | h3 | h3
        · exact Or.inl h3
        · exact Or.inr (Or.inl h3)
        · exact Or.inr (Or.inr (by rw [h3]; exact List.mem_cons_self _ _))
      · exact Or.inr (Or.inr (List.mem_cons_of_mem _ hx))
    · intro h
      rcases h with ⟨s, hs, hx⟩ | hx | hx
      · rcases h2.mpr (Or.inl ⟨s, hs, hx⟩) with h3 | h3
        · exact h1.mpr (Or.inl h3)
        · exact h1.mpr (Or.inr (Or.inl h3))
      · rcases h2.mpr (Or.inr (Or.inl hx)) with h3 | h3
        · exact h1.mpr (Or.inl h3)
        · exact h1.mpr (Or.inr (Or.inl h3))
      · rcases List.mem_cons.mp hx with rfl | hx
        · rcases h2.mpr (Or.inr (Or.inr rfl)) with h3 | h3
          · exact h1.mpr (Or.inl h3)
          · exact h1.mpr (Or.inr (Or.inl h3))
        · exact h1.mpr (Or.inr (Or.inr hx))

theorem workerSegments_sorted (pushes : List (Nat × Nat)) :
    ∀ s ∈ workerSegments pushes, List.Pairwise pairLe s := by
  intro s hs
  unfold workerSegments SortWorker.flush at hs
  rcases List.mem_append.mp hs with hs | hs
  · exact foldl_push_segments_sorted pushes SortWorker.new
      (by intro s hs; exact absurd hs (List.not_mem_nil s)) s hs
  · rw [List.mem_singleton.mp hs]
    exact List.sorted_insertionSort pairLe _

theorem workerSegments_mem (pushes : List (Nat × Nat)) (x : Nat × Nat) :
    (∃ s ∈ workerSegments pushes, x ∈ s) ↔ x ∈ pushes := by
  have hfold := foldl_push_mem pushes SortWorker.new x
  have hnew1 : ¬(∃ s ∈ SortWorker.new.segments, x ∈ s) := by
    rintro ⟨s, hs, _⟩
    exact absurd hs (List.not_mem_nil s)
  have hnew2 : x ∉ SortWorker.new.cache := List.not_mem_nil x
  constructor
  · rintro ⟨s, hs, hx⟩
    unfold workerSegments SortWorker.flush at hs
    rcases List.mem_append.mp hs with hs | hs
    · rcases hfold.mp (Or.inl ⟨s, hs, hx⟩) with h | h | h
      · exact absurd h hnew1
      · exact absurd h hnew2
      · exact h
    · rw [List.mem_singleton.mp hs] at hx
      rcases hfold.mp (Or.inr ((List.mem_insertionSort pairLe).mp hx)) with h | h | h
      · exact absurd h hnew1
      · exact absurd h hnew2
      · exact h
  · intro hx
    rcases hfold.mpr (Or.inr (Or.inr hx)) with ⟨s, hs, hxs⟩ | hc
    · refine ⟨s, ?_, hxs⟩
      unfold workerSegments SortWorker.flush
      exact List.mem_append.mpr (Or.inl hs)
    · refine ⟨List.insertionSort pairLe (pushes.foldl SortWorker.push SortWorker.new).cache,
        ?_, (List.mem_insertionSort pairLe).mpr hc⟩
      unfold workerSegments SortWorker.flush
      exact List.mem_append.mpr (Or.inr (List.mem_singleton_self _))

theorem Sorter_sorted_spec (pushes out : List (Nat × Nat))
    (h : Sorter_sorted pushes = some out) :
    List.Chain' pairLt out ∧ ∀ x, x ∈ out ↔ x ∈ pushes := by
  unfold Sorter_sorted SortReader_sorted at h
  rcases hseed : seedState (workerSegments pushes) with _ | st
  · rw [hseed] at h
    exact absurd h (by simp)
  · rw [hseed] at h
    obtain rfl := (Option.some.inj h).symm
    obtain ⟨inv, hrem, hprev⟩ :=
      seedState_spec (workerSegments pushes) (workerSegments_sorted pushes) st hseed
    obtain ⟨hmem, hchain, _⟩ := mergeLoop_spec (mergeFuel st) st inv (Nat.le_refl _)
    refine ⟨hchain, ?_⟩
    intro x
    rw [hmem x, hrem x, workerSegments_mem pushes x, hprev]
    constructor
    · rintro ⟨h1, _⟩
      exact h1
    · intro h1
      exact ⟨h1, fun hcon => Option.noConfusion hcon⟩

theorem count_one_of_nodup_mem {l : List (Nat × Nat)} {a : Nat × Nat}
    (hnd : l.Nodup) (ha : a ∈ l) : l.count a = 1 := by
  induction l with
  | nil => exact absurd ha (List.not_mem_nil a)
  | cons b t ih =>
    rw [List.count_cons]
    rcases List.mem_cons.mp ha with rfl | ha2
    · have hnotin : a ∉ t := (List.nodup_cons.mp hnd).1
      rw [List.count_eq_zero.mpr hnotin]
      simp
    · rw [ih (List.nodup_cons.mp hnd).2 ha2]
      have hne : ¬b = a := by
        intro hcon
        exact absurd (hcon ▸ ha2) (List.nodup_cons.mp hnd).1
      simp [hne]

theorem insert_sorted_tuples_ok :
    ∀ (stream table : List (Nat × Nat)), List.Chain' pairLt stream →
      (∀ l, table.getLast? = some l → ∀ s, stream.head? = some s → pairLt l s) →
      insert_sorted_tuples stream table = ⟨table ++ stream, []⟩
  | [], table, _, _ => by simp [insert_sorted_tuples]
  | kv :: rest, table, hchain, hlast => by
    have hput : lmdbPutAppendDup table kv.1 kv.2 = .ok (table ++ [kv]) := by
      unfold lmdbPutAppendDup
      rcases hl : table.getLast? with _ | l
      · rfl
      · have hlt := hlast l hl kv rfl
        have hcond : l.1 < kv.1 ∨ (l.1 = kv.1 ∧ l.2 < kv.2) := by
          rcases kv with ⟨k, v⟩
          rcases hlt with h | ⟨h1, h2⟩
          · exact Or.inl h
          · exact Or.inr ⟨h1, h2⟩
        show (if l.1 < kv.1 ∨ (l.1 = kv.1 ∧ l.2 < kv.2)
            then (Except.ok (table ++ [(kv.1, kv.2)]) : Except String (List (Nat × Nat)))
            else Except.error "MDB_KEYEXIST") = Except.ok (table ++ [kv])
        rw [if_pos hcond]
    rw [insert_sorted_tuples, hput]
    show insert_sorted_tuples rest (table ++ [kv]) =
      ({ table := table ++ kv :: rest, loggedErrors := [] } : InsertOutcome)
    have hrest := insert_sorted_tuples_ok rest (table ++ [kv])
      (List.Chain'.tail hchain)
      (by
        intro l hl s hs
        rw [List.getLast?_append, List.getLast?_singleton] at hl
        obtain rfl : kv = l := Option.some.inj hl
        have hcc := List.chain'_cons'.mp hchain
        exact hcc.1 s hs)
    rw [hrest, List.append_assoc]
    rfl

/-- C6: when the sorter's merge succeeds, bulk-inserting its output into an
empty index table logs no put error, and the table in storage order has keys
non-decreasing with values strictly increasing within each fixed key, hence
no duplicate (k, v) pair; every pushed pair appears exactly once, so a way
that references the same node id several times appears exactly once under
that node id in node_way. -/
theorem c6_index_invariant (pushes out : List (Nat × Nat))
    (h : Sorter_sorted pushes = some out) :
    (insert_sorted_tuples out []).loggedErrors = [] ∧
    List.Pairwise (fun a b : Nat × Nat => a.1 ≤ b.1 ∧ (a.1 = b.1 → a.2 < b.2))
      (insert_sorted_tuples out []).table ∧
    (insert_sorted_tuples out []).table.Nodup ∧
    (∀ kv, kv ∈ pushes → (insert_sorted_tuples out []).table.count kv = 1) ∧
    (∀ wayId refs n, pushes = wayPushes wayId refs → n ∈ refs →
      (insert_sorted_tuples out []).table.count (n, wayId) = 1) := by
  obtain ⟨hchain, hmem⟩ := Sorter_sorted_spec pushes out h
  have hins : insert_sorted_tuples out [] = ⟨[] ++ out, []⟩ :=
    insert_sorted_tuples_ok out [] hchain (by intro l hl; exact absurd hl (by simp))
  have htbl : (insert_sorted_tuples out []).table = out := by rw [hins]; simp
  have hlog : (insert_sorted_tuples out []).loggedErrors = [] := by rw [hins]
  rw [htbl, hlog]
  have hpw : List.Pairwise pairLt out := List.chain'_iff_pairwise.mp hchain
  have hnodup : out.Nodup := by
    refine List.Pairwise.imp ?_ hpw
    intro a b hab hcon
    exact absurd (hcon ▸ hab) (pairLt_irrefl a)
  have hcount : ∀ kv, kv ∈ pushes → out.count kv = 1 := by
    intro kv hkv
    exact count_one_of_nodup_mem hnodup ((hmem kv).mpr hkv)
  refine ⟨rfl, ?_, hnodup, hcount, ?_⟩
  · refine List.Pairwise.imp ?_ hpw
    intro a b hab
    rcases hab with hlt | ⟨heq, hlt⟩
    · exact ⟨Nat.le_of_lt hlt, fun hcon => absurd (hcon ▸ hlt) (by omega)⟩
    · exact ⟨Nat.le_of_eq heq, fun _ => hlt⟩
  · intro wayId refs n hpushes hn
    refine hcount (n, wayId) ?_
    rw [hpushes]
    exact List.mem_map.mpr ⟨n, List.mem_dedup.mpr hn, rfl⟩

/-- C6 witness: the way 100 with refs `[10, 11, 10]` (spec scenario S2). -/
theorem c6_witness :
    ((insert_sorted_tuples [(10, 100), (11, 100)] []).table).count (10, 100) = 1 :=
  (c6_index_invariant (wayPushes 100 [10, 11, 10]) [(10, 100), (11, 100)]
    (by decide)).2.2.2.2 100 [10, 11, 10] 10 rfl (by decide)

/-- C5 (code evaluated at the failing input): with zero records pushed, the
worker's final flush still writes one (empty) segment, and seeding the merge
heap unwraps a deserialization from that empty segment and panics (`none`)
instead of yielding the empty sequence. The same happens whenever the push
count is an exact multiple of MAX_CACHE_SIZE. -/
theorem c5_sorted_panics_on_zero_pushes : Sorter_sorted [] = none := rfl
